import Mathlib

/-!
Verification development for the binigo HTTP framework core
(router, pattern matcher, middleware pipeline, DI container,
built-in middleware).  Go code is shallowly embedded: strings are
`List Char`, Go maps are association lists with replace-or-append
insertion, handlers are functions on a request context record, and
the regex patterns produced by `Route.compile` (concatenations of
literals, `([^/]+)` and `(?:([^/]+))?`, anchored on both sides) are
embedded as token lists with a leftmost-first greedy matcher.
-/

namespace Binigo

abbrev Str := List Char

/-- JSON-ish values appearing in response bodies built from `Map` literals. -/
inductive JVal : Type where
  | str (v : Str)
  | jbool (v : Bool)
  | num (v : Nat)
deriving DecidableEq, Repr

/-- Association-list lookup, mirroring Go map reads. -/
def lookupKV {β : Type} : List (Str × β) → Str → Option β
  | [], _ => none
  | (k, v) :: l, k' => if k = k' then some v else lookupKV l k'

/-- Association-list insertion with Go map semantics:
replace the value if the key is present, append otherwise. -/
def insertKV {β : Type} : List (Str × β) → Str → β → List (Str × β)
  | [], k, v => [(k, v)]
  | (k1, v1) :: l, k, v =>
    if k1 = k then (k, v) :: l else (k1, v1) :: insertKV l k v

/-- Request/response context (embeds `Context`): request method, path and
Content-Type header, route params, response status and JSON body, plus an
event trace used to observe middleware/handler execution order. -/
structure Ctx : Type where
  method : Str
  path : Str
  ctype : Str
  params : List (Str × Str)
  status : Nat
  body : Option (List (Str × JVal))
  trace : List Str

/-- A fresh context for a request (embeds `NewContext` plus the request data). -/
def mkCtx (method path : Str) : Ctx :=
  { method := method, path := path, ctype := [], params := [],
    status := 200, body := none, trace := [] }

abbrev Handler := Ctx → Ctx
abbrev MW := Handler → Handler

/-- `Context.Status`. -/
def ctxStatus (c : Ctx) (code : Nat) : Ctx := { c with status := code }

/-- `Context.JSON` (marshalling always succeeds on these literals). -/
def ctxJSON (c : Ctx) (m : List (Str × JVal)) : Ctx := { c with body := some m }

/-- `Context.AbortWithJSON`: set status then body. -/
def abortWithJSON (c : Ctx) (code : Nat) (m : List (Str × JVal)) : Ctx :=
  ctxJSON (ctxStatus c code) m

/-- A handler that just records its label in the trace. -/
def labelH (l : Str) : Handler := fun c => { c with trace := c.trace ++ [l] }

/-- A middleware that records entry before and exit after running `next`. -/
def labelMW (l : Str) : MW := fun next c =>
  let c1 := next { c with trace := c.trace ++ [l ++ ".in".toList] }
  { c1 with trace := c1.trace ++ [l ++ ".out".toList] }

/-! ### Route templates: tokens and parsing (embeds `Route.compile`) -/

/-- One token of a compiled route pattern: a literal character, a required
parameter `([^/]+)` or an optional parameter `(?:([^/]+))?`. -/
inductive Tok : Type where
  | lit (c : Char)
  | req (n : Str)
  | opt (n : Str)
deriving DecidableEq, Repr

def litify (cs : Str) : List Tok := cs.map Tok.lit

/-- `\w` of the Go regexes used by `compile`. -/
def isWordChar (c : Char) : Bool := c.isAlphanum || c = '_'

/-- Scanner state while recognising `{word}` / `{word?}` occurrences. -/
inductive PState : Type where
  | norm
  | col (w : Str)
  | colq (w : Str)

/-- One scanner step.  Recognises exactly the non-overlapping occurrences of
`\{(\w+)\}` and `\{(\w+)\?\}` that the two `ReplaceAllStringFunc` passes of
`Route.compile` replace; everything else stays literal. -/
def pstep : List Tok × PState → Char → List Tok × PState
  | (ts, .norm), c => if c = '{' then (ts, .col []) else (ts ++ [.lit c], .norm)
  | (ts, .col w), c =>
    if c = '}' then
      if w = [] then (ts ++ [.lit '{', .lit '}'], .norm)
      else (ts ++ [.req w], .norm)
    else if c = '?' then
      if w = [] then (ts ++ [.lit '{', .lit '?'], .norm)
      else (ts, .colq w)
    else if isWordChar c then (ts, .col (w ++ [c]))
    else if c = '{' then (ts ++ litify ('{' :: w), .col [])
    else (ts ++ litify ('{' :: w) ++ [.lit c], .norm)
  | (ts, .colq w), c =>
    if c = '}' then (ts ++ [.opt w], .norm)
    else if c = '{' then (ts ++ litify ('{' :: (w ++ ['?'])), .col [])
    else (ts ++ litify ('{' :: (w ++ ['?'])) ++ [.lit c], .norm)

/-- Parse a route path template into pattern tokens. -/
def parseToks (cs : Str) : List Tok :=
  match cs.foldl pstep ([], .norm) with
  | (ts, .norm) => ts
  | (ts, .col w) => ts ++ litify ('{' :: w)
  | (ts, .colq w) => ts ++ litify ('{' :: (w ++ ['?']))

/-- Names of required parameters, in template order (collected by the first
replacement pass of `compile`). -/
def reqNames (ts : List Tok) : List Str :=
  ts.filterMap (fun t => match t with | .req n => some n | _ => none)

/-- Names of optional parameters, in template order (collected by the second
replacement pass of `compile`). -/
def optNames (ts : List Tok) : List Str :=
  ts.filterMap (fun t => match t with | .opt n => some n | _ => none)

/-- Parameter names in capture-group (positional) order. -/
def positionalNames (ts : List Tok) : List Str :=
  ts.filterMap (fun t => match t with | .req n => some n | .opt n => some n | _ => none)

/-- Parameter name and required-ness, in capture-group order. -/
def paramSig (ts : List Tok) : List (Str × Bool) :=
  ts.filterMap (fun t =>
    match t with | .req n => some (n, true) | .opt n => some (n, false) | _ => none)

/-- Number of capture groups of the compiled pattern. -/
def paramCount (ts : List Tok) : Nat := (paramSig ts).length

/-! ### The compiled matcher (embeds Go regexp `FindStringSubmatch` on the
patterns `^ … $` that `compile` produces, with leftmost-first greedy
semantics: `([^/]+)` prefers the longest capture, `(?: … )?` prefers to
match the group, and failures backtrack). -/

def nonSep (c : Char) : Bool := !(c = '/')

/-- All ways to split off a non-empty run of non-separator characters,
longest first — the candidate captures of `([^/]+)` in greedy order. -/
def splitsDesc (cs : Str) : List (Str × Str) :=
  (List.range (cs.takeWhile nonSep).length).map (fun k =>
    ((cs.takeWhile nonSep).take ((cs.takeWhile nonSep).length - k),
     (cs.takeWhile nonSep).drop ((cs.takeWhile nonSep).length - k) ++ cs.dropWhile nonSep))

/-- Match a token list against a whole path, returning the capture of each
group in positional order (`none` = group did not participate). -/
def matchToks : List Tok → Str → Option (List (Option Str))
  | [], [] => some []
  | [], _ :: _ => none
  | .lit _ :: _, [] => none
  | .lit c :: ts, d :: ds => if c = d then matchToks ts ds else none
  | .req _ :: ts, cs =>
    (splitsDesc cs).findSome? (fun pr =>
      (matchToks ts pr.2).map (fun caps => some pr.1 :: caps))
  | .opt _ :: ts, cs =>
    match (splitsDesc cs).findSome? (fun pr =>
        (matchToks ts pr.2).map (fun caps => some pr.1 :: caps)) with
    | some r => some r
    | none => (matchToks ts cs).map (fun caps => (none : Option Str) :: caps)

/-! ### Routes and the router (embeds `router.go`) -/

/-- A registered route: method, full path template (group prefix already
prepended by `Add`), handler, route middleware, and the compiled pattern
(`toks`) with the recorded `paramNames` — required names first, optional
names second, exactly as the two replacement passes of `compile` record
them. -/
structure RouteL : Type where
  method : Str
  path : Str
  handler : Handler
  mws : List MW
  toks : List Tok
  paramNames : List Str

/-- `Router.Add` + `Route.compile` (+ `Route.Middleware` for the given
route-middleware list): build the compiled route for a full path. -/
def mkRoute (method path : Str) (h : Handler) (mws : List MW) : RouteL :=
  { method := method.map Char.toUpper
    path := path
    handler := h
    mws := mws
    toks := parseToks path
    paramNames := reqNames (parseToks path) ++ optNames (parseToks path) }

/-- The Go `Match` loop body: pair `paramNames[i]` with capture group `i+1`,
skipping indices beyond the group count and empty/absent captures. -/
def buildParams (acc : List (Str × Str)) : List Str → List (Option Str) → List (Str × Str)
  | [], _ => acc
  | _ :: _, [] => acc
  | n :: ns, some v :: cs =>
    if v = [] then buildParams acc ns cs else buildParams (insertKV acc n v) ns cs
  | _ :: ns, none :: cs => buildParams acc ns cs

/-- `Route.Match`: run the compiled pattern on the path; on success return
the parameter map. -/
def matchRoute (r : RouteL) (path : Str) : Option (List (Str × Str)) :=
  match matchToks r.toks path with
  | none => none
  | some caps => some (buildParams [] r.paramNames caps)

/-- Router state: the route store (the shared per-method buckets, flattened
in registration order), this router's middleware and its prefix. -/
structure RouterL : Type where
  routes : List RouteL
  mws : List MW
  pfx : Str

def emptyRouter : RouterL := { routes := [], mws := [], pfx := [] }

/-- `Router.Add` (with a route-middleware list, modelling a chained
`.Middleware(...)` call): prepend the router's prefix and append to the
shared store. -/
def addRouteR (r : RouterL) (method path : Str) (h : Handler) (mws : List MW) : RouterL :=
  { r with routes := r.routes ++ [mkRoute method (r.pfx ++ path) h mws] }

/-- `Router.Middleware`: append to this router's middleware slice. -/
def mwRouter (r : RouterL) (ms : List MW) : RouterL :=
  { r with mws := r.mws ++ ms }

/-- `Router.Group`: the group shares the route store (so its registrations
land in the root's buckets) and gets a fresh middleware slice and the
extended prefix; the root's own middleware is unchanged. The group object
itself is dropped after `fn` runs, exactly as in `Handle`-based dispatch,
which never consults it. -/
def groupR (r : RouterL) (pfx2 : Str) (fn : RouterL → RouterL) : RouterL :=
  let g := fn { routes := r.routes, mws := [], pfx := r.pfx ++ pfx2 }
  { routes := g.routes, mws := r.mws, pfx := r.pfx }

/-- The per-method bucket scanned by `Handle` (registration order). -/
def routesFor (r : RouterL) (method : Str) : List RouteL :=
  r.routes.filter (fun rt => rt.method = method)

/-- First matching route of a bucket, with its extracted parameters. -/
def firstMatch : List RouteL → Str → Option (RouteL × List (Str × Str))
  | [], _ => none
  | r :: rs, p =>
    match matchRoute r p with
    | some ps => some (r, ps)
    | none => firstMatch rs p

/-- The Go wrapping loop `for i := len(mw)-1; i >= 0; i-- { h = mw[i](h) }`. -/
def wrapMW (ms : List MW) (h : Handler) : Handler :=
  ms.foldr (fun m acc => m acc) h

/-- The 404 body `Map{"error": "Not Found"}` of `Router.Handle`. -/
def notFoundBody : List (Str × JVal) := [("error".toList, .str "Not Found".toList)]

/-- `Router.Handle`: find the first matching route for the request method
and path; set its params, wrap the handler in route middleware then this
router's middleware, run it.  No match (missing bucket or exhausted
bucket) yields `ctx.Status(404).JSON(Map{"error": "Not Found"})`. -/
def handleR (rtr : RouterL) (c : Ctx) : Ctx :=
  match firstMatch (routesFor rtr c.method) c.path with
  | some (r, ps) => (wrapMW rtr.mws (wrapMW r.mws r.handler)) { c with params := ps }
  | none => ctxJSON (ctxStatus c 404) notFoundBody

/-- The application: root router plus global middleware (`Application.Use`). -/
structure AppL : Type where
  router : RouterL
  mws : List MW

/-- `Application.buildHandler`: wrap the root router's `Handle` in the
global middleware, outermost first. -/
def buildHandler (a : AppL) : Handler :=
  wrapMW a.mws (fun c => handleR a.router c)

/-! ### The DI container (embeds `container.go`)

Values carry a numeric identity so that reference equality of Go
`interface{}` values is observable; a resolver is modelled as a function
of the container's allocation clock (the count of resolver invocations so
far), so that "constructs a new object each time" is expressible as
injectivity of the resolver function. -/

inductive Val : Type where
  | obj (id : Nat)
deriving DecidableEq, Repr

structure BindingL : Type where
  resolver : Nat → Val
  singleton : Bool

structure ContainerL : Type where
  bindings : List (Str × BindingL)
  instances : List (Str × Val)
  aliases : List (Str × Str)
  counter : Nat

/-- `NewContainer` (with allocation clock 0). -/
def emptyContainer : ContainerL :=
  { bindings := [], instances := [], aliases := [], counter := 0 }

/-- `Container.Bind`. -/
def bindC (c : ContainerL) (abs : Str) (f : Nat → Val) : ContainerL :=
  { c with bindings := insertKV c.bindings abs { resolver := f, singleton := false } }

/-- `Container.Singleton`. -/
def singletonC (c : ContainerL) (abs : Str) (f : Nat → Val) : ContainerL :=
  { c with bindings := insertKV c.bindings abs { resolver := f, singleton := true } }

/-- `Container.Instance`. -/
def instanceC (c : ContainerL) (abs : Str) (v : Val) : ContainerL :=
  { c with instances := insertKV c.instances abs v }

/-- `Container.Alias`. -/
def aliasC (c : ContainerL) (al abs : Str) : ContainerL :=
  { c with aliases := insertKV c.aliases al abs }

/-- The alias step at the top of `Make`. -/
def canonName (c : ContainerL) (abs : Str) : Str :=
  match lookupKV c.aliases abs with
  | some a => a
  | none => abs

/-- `Container.Make` (sequential semantics): resolve the alias, return a
cached instance if present, fail if no binding exists, otherwise invoke
the resolver (advancing the allocation clock) and cache the result when
the binding is a singleton. -/
def makeC (c : ContainerL) (abs0 : Str) : Except Str Val × ContainerL :=
  let abs := canonName c abs0
  match lookupKV c.instances abs with
  | some v => (.ok v, c)
  | none =>
    match lookupKV c.bindings abs with
    | none => (.error ("binding not found: ".toList ++ abs), c)
    | some b =>
      let v := b.resolver c.counter
      let c1 := { c with counter := c.counter + 1 }
      if b.singleton then (.ok v, { c1 with instances := insertKV c1.instances abs v })
      else (.ok v, c1)

/-! ### Interleaving model of two concurrent `Make` calls on one
unresolved singleton binding.

`Make`'s critical sections under the `RWMutex`: (1) the instance-cache
check plus binding fetch, under the read lock — two callers may both hold
read locks, so both may complete this step before either writes; (2) the
resolver invocation, under no lock; (3) the store into the instance
cache, under the write lock.  Each section is one atomic step below; a
schedule is the interleaving of the two threads' steps.  The resolver
returns a fresh object identified by the invocation count at the time of
the call. -/

structure RaceState : Type where
  cache : Option Nat
  calls : Nat
deriving DecidableEq, Repr

/-- A thread's program counter inside `Make`. -/
inductive TPC : Type where
  | start
  | ready
  | resolved (v : Nat)
  | done (ret : Nat)
deriving DecidableEq, Repr

/-- One atomic step of a thread running `Make` on the singleton name. -/
def stepT : RaceState × TPC → RaceState × TPC
  | (st, .start) =>
    match st.cache with
    | some v => (st, .done v)
    | none => (st, .ready)
  | (st, .ready) => ({ st with calls := st.calls + 1 }, .resolved st.calls)
  | (st, .resolved v) => ({ st with cache := some v }, .done v)
  | (st, .done r) => (st, .done r)

structure RaceWorld : Type where
  st : RaceState
  t1 : TPC
  t2 : TPC
deriving DecidableEq, Repr

/-- Run a schedule: `true` steps thread 1, `false` steps thread 2. -/
def runRace : RaceWorld → List Bool → RaceWorld
  | w, [] => w
  | w, b :: bs =>
    if b then
      let (st', p') := stepT (w.st, w.t1)
      runRace { w with st := st', t1 := p' } bs
    else
      let (st', p') := stepT (w.st, w.t2)
      runRace { w with st := st', t2 := p' } bs

def raceInit : RaceWorld :=
  { st := { cache := none, calls := 0 }, t1 := .start, t2 := .start }

/-! ### Built-in middleware (embeds `middleware.go`) -/

/-- `strings.Contains` (true when `sub` occurs as a contiguous substring). -/
def containsSub (hay sub : Str) : Bool :=
  (List.range (hay.length + 1)).any (fun i => (hay.drop i).take sub.length = sub)

/-- `JSONOnlyMiddleware`: for methods other than GET and DELETE, a
Content-Type not containing "application/json" is rejected with 415. -/
def jsonOnlyMW : MW := fun next c =>
  if ¬ (c.method = "GET".toList) ∧ ¬ (c.method = "DELETE".toList) then
    if ¬ (containsSub c.ctype "application/json".toList = true) then
      abortWithJSON c 415
        [("error".toList, .str "Content-Type must be application/json".toList)]
    else next c
  else next c

/-- Per-client rate limiter entry. -/
structure RLClient : Type where
  requests : Nat
  resetTime : Nat
deriving DecidableEq, Repr

/-- `time.Minute`, in the abstract time unit of the model. -/
def minuteN : Nat := 60

/-- One request through `RateLimitMiddleware`'s bookkeeping for client
`ip` at time `now`: returns the updated client map and whether the
request passes downstream (`false` = 429 short-circuit). -/
def rlStep (quota : Nat) (clients : List (Str × RLClient)) (ip : Str) (now : Nat) :
    List (Str × RLClient) × Bool :=
  match lookupKV clients ip with
  | some c0 =>
    let c1 := if now > c0.resetTime then { requests := 0, resetTime := now + minuteN } else c0
    if c1.requests ≥ quota then (insertKV clients ip c1, false)
    else (insertKV clients ip { c1 with requests := c1.requests + 1 }, true)
  | none => (insertKV clients ip { requests := 1, resetTime := now + minuteN }, true)

/-- The full middleware behaviour on a context: pass downstream or abort
with 429 and `Map{"error": "Too many requests"}`. -/
def rlHandleOne (quota : Nat) (clients : List (Str × RLClient)) (next : Handler)
    (c : Ctx) (ip : Str) (now : Nat) : List (Str × RLClient) × Ctx :=
  match rlStep quota clients ip now with
  | (st', true) => (st', next c)
  | (st', false) =>
    (st', abortWithJSON c 429 [("error".toList, .str "Too many requests".toList)])

/-- The client map after `k` requests from `ip` at times `u 0, …, u (k-1)`,
starting from the empty map. -/
def runRL (quota : Nat) (ip : Str) (u : Nat → Nat) : Nat → List (Str × RLClient)
  | 0 => []
  | k + 1 => (rlStep quota (runRL quota ip u k) ip (u k)).1

/-! ### Template predicates and substitution (used to state the
round-trip and invariant claims) -/

/-- Substitute values for the parameter tokens, positionally. -/
def substP : List Tok → List Str → Str
  | [], _ => []
  | .lit c :: ts, vs => c :: substP ts vs
  | .req _ :: ts, [] => substP ts []
  | .req _ :: ts, v :: vs => v ++ substP ts vs
  | .opt _ :: ts, [] => substP ts []
  | .opt _ :: ts, v :: vs => v ++ substP ts vs

/-- Every parameter token occupies a whole path segment: it is followed by
a literal `/` or ends the template.  (Adjacent parameters, or a parameter
running into literal text, make greedy matching ambiguous.) -/
def delimitedToks : List Tok → Bool
  | [] => true
  | [_] => true
  | t :: t2 :: ts =>
    (match t with
     | .lit _ => true
     | _ => t2 = Tok.lit '/') && delimitedToks (t2 :: ts)

/-- No required parameter token occurs in the list. -/
def noReqToks (ts : List Tok) : Bool :=
  ts.all (fun t => match t with | .req _ => false | _ => true)

/-- Every optional parameter occurs after all required parameters, so
the recorded `paramNames` order (required first, then optional) agrees
with the capture groups' positional order. -/
def reqBeforeOpt : List Tok → Bool
  | [] => true
  | .opt _ :: ts => noReqToks ts && reqBeforeOpt ts
  | _ :: ts => reqBeforeOpt ts

/-- A literal character with no special meaning in a Go regular
expression; on templates whose literal text is plain, the compiled
regex and the token matcher coincide. -/
def plainChar (c : Char) : Bool :=
  ¬ (c ∈ (['.', '*', '+', '?', '(', ')', '[', ']', '{', '}', '^', '$', '\\', '|'] : List Char))

def plainToks (ts : List Tok) : Bool :=
  ts.all (fun t => match t with | .lit c => plainChar c | _ => true)

/-! ### Concrete fixtures for the claims -/

/-- C2 fixture: a group with prefix `/api` and middleware `M`, containing
one GET route `/u` with route middleware `R`, under global middleware
`G`. -/
def rtrC2 : RouterL :=
  groupR emptyRouter "/api".toList (fun g =>
    addRouteR (mwRouter g [labelMW "M".toList]) "GET".toList "/u".toList
      (labelH "H".toList) [labelMW "R".toList])

def appC2 : AppL := { router := rtrC2, mws := [labelMW "G".toList] }

/-- C5 fixture: `/users/{id}` registered before `/users/me`. -/
def r1C5 : RouteL := mkRoute "GET".toList "/users/{id}".toList (labelH "h1".toList) []

def r2C5 : RouteL := mkRoute "GET".toList "/users/me".toList (labelH "h2".toList) []

def rtrC5 : RouterL :=
  addRouteR (addRouteR emptyRouter "GET".toList "/users/{id}".toList (labelH "h1".toList) [])
    "GET".toList "/users/me".toList (labelH "h2".toList) []

def cC5 : Ctx := mkCtx "GET".toList "/users/me".toList

/-- C3 fixture: only a POST route at `/x`; the request is GET `/x`. -/
def rtrC3 : RouterL :=
  addRouteR emptyRouter "POST".toList "/x".toList (labelH "h".toList) []

def cC3 : Ctx := mkCtx "GET".toList "/x".toList

/-- C4 fixture: a DELETE request declaring `text/plain`. -/
def cDel : Ctx := { mkCtx "DELETE".toList "/x".toList with ctype := "text/plain".toList }

/-- C4 fixture: a POST request declaring `text/plain`. -/
def cPost : Ctx := { mkCtx "POST".toList "/x".toList with ctype := "text/plain".toList }

/-- C6/C10 fixture: an optional parameter declared before a required one. -/
def rC6 : RouteL := mkRoute "GET".toList "/{b?}/{a}".toList (labelH "h".toList) []

/-- C8 fixture: alias `a → b` with a cached instance under `b`. -/
def contC8 : ContainerL :=
  aliasC (instanceC emptyContainer "b".toList (.obj 7)) "a".toList "b".toList

/-- C8 fixture: alias `c → d` with no binding anywhere. -/
def contC8b : ContainerL := aliasC emptyContainer "c".toList "d".toList

/-- C7 fixture: a singleton binding whose resolver allocates a fresh
object on every invocation. -/
def contC7s : ContainerL := singletonC emptyContainer "s".toList Val.obj

/-- C7 fixture: a transient binding whose resolver allocates a fresh
object on every invocation. -/
def contC7t : ContainerL := bindC emptyContainer "t".toList Val.obj

/-! ### Association-list lemmas -/

theorem lookupKV_insertKV {β : Type} (l : List (Str × β)) (k : Str) (v : β) (k' : Str) :
    lookupKV (insertKV l k v) k' = if k' = k then some v else lookupKV l k' := by
  induction l with
  | nil =>
    simp only [insertKV, lookupKV]
    by_cases h : k = k'
    · subst h; simp
    · rw [if_neg h, if_neg (fun hh => h hh.symm)]
  | cons p l ih =>
    obtain ⟨k1, v1⟩ := p
    simp only [insertKV]
    by_cases h1 : k1 = k
    · subst h1
      simp only [if_pos rfl, lookupKV]
      by_cases h2 : k1 = k'
      · subst h2; simp
      · rw [if_neg h2, if_neg (fun hh => h2 hh.symm), if_neg h2]
    · rw [if_neg h1]
      simp only [lookupKV]
      by_cases h2 : k1 = k'
      · subst h2
        rw [if_pos rfl, if_pos rfl, if_neg h1]
      · rw [if_neg h2, if_neg h2, ih]

theorem lookupKV_insertKV_self {β : Type} (l : List (Str × β)) (k : Str) (v : β) :
    lookupKV (insertKV l k v) k = some v := by
  rw [lookupKV_insertKV, if_pos rfl]

theorem mem_insertKV {β : Type} (l : List (Str × β)) (k : Str) (v : β) (p : Str × β)
    (hp : p ∈ insertKV l k v) : p ∈ l ∨ p = (k, v) := by
  induction l with
  | nil => simp only [insertKV, List.mem_singleton] at hp; exact Or.inr hp
  | cons q l ih =>
    obtain ⟨k1, v1⟩ := q
    simp only [insertKV] at hp
    by_cases h1 : k1 = k
    · rw [if_pos h1] at hp
      rcases List.mem_cons.mp hp with h | h
      · exact Or.inr h
      · exact Or.inl (List.mem_cons_of_mem _ h)
    · rw [if_neg h1] at hp
      rcases List.mem_cons.mp hp with h | h
      · exact Or.inl (h ▸ List.mem_cons_self _ _)
      · rcases ih h with h' | h'
        · exact Or.inl (List.mem_cons_of_mem _ h')
        · exact Or.inr h'

theorem insertKV_eq_append {β : Type} (l : List (Str × β)) (k : Str) (v : β)
    (h : lookupKV l k = none) : insertKV l k v = l ++ [(k, v)] := by
  induction l with
  | nil => rfl
  | cons q l ih =>
    obtain ⟨k1, v1⟩ := q
    simp only [lookupKV] at h
    by_cases h1 : k1 = k
    · rw [if_pos h1] at h; exact absurd h (by simp)
    · rw [if_neg h1] at h
      simp only [insertKV, if_neg h1, List.cons_append, List.cons.injEq, true_and]
      exact ih h

/-! ### Matcher lemmas -/

theorem takeWhile_append_stop (v r : Str) (hv : ∀ c ∈ v, nonSep c = true)
    (hr : r = [] ∨ ∃ r', r = '/' :: r') :
    (v ++ r).takeWhile nonSep = v := by
  induction v with
  | nil =>
    rcases hr with h | ⟨r', h⟩ <;> subst h
    · rfl
    · simp [List.takeWhile_cons, nonSep]
  | cons c v ih =>
    have hc : nonSep c = true := hv c (List.mem_cons_self _ _)
    rw [List.cons_append, List.takeWhile_cons, hc]
    simp only [if_true]
    exact congrArg (c :: ·) (ih fun d hd => hv d (List.mem_cons_of_mem _ hd))

theorem dropWhile_append_stop (v r : Str) (hv : ∀ c ∈ v, nonSep c = true)
    (hr : r = [] ∨ ∃ r', r = '/' :: r') :
    (v ++ r).dropWhile nonSep = r := by
  induction v with
  | nil =>
    rcases hr with h | ⟨r', h⟩ <;> subst h
    · rfl
    · simp [List.dropWhile_cons, nonSep]
  | cons c v ih =>
    have hc : nonSep c = true := hv c (List.mem_cons_self _ _)
    rw [List.cons_append, List.dropWhile_cons, hc]
    simp only [if_true]
    exact ih fun d hd => hv d (List.mem_cons_of_mem _ hd)

theorem findSome?_of_head {α β : Type} (l : List α) (a : α) (f : α → Option β) (b : β)
    (hh : l.head? = some a) (hf : f a = some b) : l.findSome? f = some b := by
  cases l with
  | nil => simp at hh
  | cons x xs =>
    rw [List.head?_cons, Option.some.injEq] at hh
    subst hh
    rw [List.findSome?_cons, hf]

theorem splitsDesc_head (v r : Str) (hne : v ≠ []) (hv : ∀ c ∈ v, nonSep c = true)
    (hr : r = [] ∨ ∃ r', r = '/' :: r') :
    (splitsDesc (v ++ r)).head? = some (v, r) := by
  unfold splitsDesc
  rw [takeWhile_append_stop v r hv hr, dropWhile_append_stop v r hv hr]
  cases v with
  | nil => exact absurd rfl hne
  | cons c v' =>
    rw [show (c :: v').length = v'.length + 1 from rfl, List.range_succ_eq_map, List.map_cons,
      List.head?_cons]
    simp

theorem splitsDesc_mem (cs : Str) (x : Str × Str) (hx : x ∈ splitsDesc cs) :
    x.1 ≠ [] ∧ ∀ c ∈ x.1, nonSep c = true := by
  unfold splitsDesc at hx
  simp only [List.mem_map, List.mem_range] at hx
  obtain ⟨k, hk, rfl⟩ := hx
  constructor
  · intro hemp
    have h1 := congrArg List.length hemp
    rw [List.length_take] at h1
    simp only [List.length_nil] at h1
    omega
  · intro c hc
    exact List.mem_takeWhile_imp (List.take_subset _ _ hc)

theorem paramSig_lit (c : Char) (ts : List Tok) : paramSig (.lit c :: ts) = paramSig ts := rfl

theorem paramSig_req (n : Str) (ts : List Tok) :
    paramSig (.req n :: ts) = (n, true) :: paramSig ts := rfl

theorem paramSig_opt (n : Str) (ts : List Tok) :
    paramSig (.opt n :: ts) = (n, false) :: paramSig ts := rfl

theorem delimitedToks_tail {t : Tok} {ts : List Tok} (h : delimitedToks (t :: ts) = true) :
    delimitedToks ts = true := by
  cases ts with
  | nil => rfl
  | cons t2 ts' =>
    simp only [delimitedToks, Bool.and_eq_true] at h
    exact h.2

theorem delimitedToks_req {n : Str} {ts : List Tok}
    (h : delimitedToks (.req n :: ts) = true) :
    ts = [] ∨ ∃ ts', ts = .lit '/' :: ts' := by
  cases ts with
  | nil => exact Or.inl rfl
  | cons t2 ts' =>
    simp only [delimitedToks, Bool.and_eq_true, decide_eq_true_eq] at h
    exact Or.inr ⟨ts', by rw [h.1]⟩

theorem delimitedToks_opt {n : Str} {ts : List Tok}
    (h : delimitedToks (.opt n :: ts) = true) :
    ts = [] ∨ ∃ ts', ts = .lit '/' :: ts' := by
  cases ts with
  | nil => exact Or.inl rfl
  | cons t2 ts' =>
    simp only [delimitedToks, Bool.and_eq_true, decide_eq_true_eq] at h
    exact Or.inr ⟨ts', by rw [h.1]⟩

/-- On a segment-delimited template, substituting non-empty separator-free
values matches back exactly those values, one capture per group, none of
them skipped. -/
theorem matchToks_substP (ts : List Tok) :
    ∀ vs : List Str, delimitedToks ts = true → vs.length = paramCount ts →
      (∀ v ∈ vs, v ≠ [] ∧ ∀ c ∈ v, nonSep c = true) →
      matchToks ts (substP ts vs) = some (vs.map some) := by
  induction ts with
  | nil =>
    intro vs _ hlen _
    have h0 : vs = [] := List.eq_nil_of_length_eq_zero (by simpa [paramCount, paramSig] using hlen)
    subst h0; rfl
  | cons t ts ih =>
    intro vs hdel hlen hvals
    cases t with
    | lit c =>
      have hlen' : vs.length = paramCount ts := by
        simpa [paramCount, paramSig_lit] using hlen
      simp only [substP, matchToks, if_pos rfl]
      exact ih vs (delimitedToks_tail hdel) hlen' hvals
    | req n =>
      cases vs with
      | nil => simp [paramCount, paramSig_req] at hlen
      | cons v vs' =>
        have hv := hvals v (List.mem_cons_self _ _)
        have hvals' : ∀ w ∈ vs', w ≠ [] ∧ ∀ c ∈ w, nonSep c = true :=
          fun w hw => hvals w (List.mem_cons_of_mem _ hw)
        have hlen' : vs'.length = paramCount ts := by
          simpa [paramCount, paramSig_req] using hlen
        have hIH := ih vs' (delimitedToks_tail hdel) hlen' hvals'
        have hr : substP ts vs' = [] ∨ ∃ r', substP ts vs' = '/' :: r' := by
          rcases delimitedToks_req hdel with h | ⟨ts'', h⟩
          · subst h; exact Or.inl rfl
          · subst h; exact Or.inr ⟨_, rfl⟩
        have hfs := findSome?_of_head (splitsDesc (v ++ substP ts vs')) (v, substP ts vs')
          (fun pr => (matchToks ts pr.2).map (fun caps => some pr.1 :: caps))
          (some v :: vs'.map some) (splitsDesc_head v _ hv.1 hv.2 hr) (by simp [hIH])
        simp only [substP, matchToks]
        rw [hfs]
        simp
    | opt n =>
      cases vs with
      | nil => simp [paramCount, paramSig_opt] at hlen
      | cons v vs' =>
        have hv := hvals v (List.mem_cons_self _ _)
        have hvals' : ∀ w ∈ vs', w ≠ [] ∧ ∀ c ∈ w, nonSep c = true :=
          fun w hw => hvals w (List.mem_cons_of_mem _ hw)
        have hlen' : vs'.length = paramCount ts := by
          simpa [paramCount, paramSig_opt] using hlen
        have hIH := ih vs' (delimitedToks_tail hdel) hlen' hvals'
        have hr : substP ts vs' = [] ∨ ∃ r', substP ts vs' = '/' :: r' := by
          rcases delimitedToks_opt hdel with h | ⟨ts'', h⟩
          · subst h; exact Or.inl rfl
          · subst h; exact Or.inr ⟨_, rfl⟩
        have hfs := findSome?_of_head (splitsDesc (v ++ substP ts vs')) (v, substP ts vs')
          (fun pr => (matchToks ts pr.2).map (fun caps => some pr.1 :: caps))
          (some v :: vs'.map some) (splitsDesc_head v _ hv.1 hv.2 hr) (by simp [hIH])
        simp only [substP, matchToks]
        rw [hfs]
        simp

/-- Invariant of successful matches: one capture per group; required
groups always participate; every participating capture is a non-empty
run of non-separator characters. -/
theorem matchToks_caps (ts : List Tok) :
    ∀ (cs : Str) (caps : List (Option Str)), matchToks ts cs = some caps →
      caps.length = paramCount ts ∧
      ∀ pr ∈ (paramSig ts).zip caps,
        (pr.1.2 = true → pr.2 ≠ none) ∧
        ∀ v, pr.2 = some v → v ≠ [] ∧ ∀ c ∈ v, nonSep c = true := by
  induction ts with
  | nil =>
    intro cs caps hm
    cases cs with
    | nil =>
      simp only [matchToks, Option.some.injEq] at hm
      subst hm
      exact ⟨rfl, by simp [paramSig]⟩
    | cons c cs' => simp [matchToks] at hm
  | cons t ts ih =>
    intro cs caps hm
    cases t with
    | lit c =>
      cases cs with
      | nil => simp [matchToks] at hm
      | cons d ds =>
        simp only [matchToks] at hm
        by_cases hcd : c = d
        · rw [if_pos hcd] at hm
          obtain ⟨h1, h2⟩ := ih ds caps hm
          exact ⟨by simpa [paramCount, paramSig_lit] using h1,
            by simpa [paramSig_lit] using h2⟩
        · rw [if_neg hcd] at hm
          exact absurd hm (by simp)
    | req n =>
      simp only [matchToks] at hm
      obtain ⟨pr, hpr, hf⟩ := List.exists_of_findSome?_eq_some hm
      obtain ⟨caps', hm', hcaps⟩ :
          ∃ caps', matchToks ts pr.2 = some caps' ∧ caps = some pr.1 :: caps' := by
        cases hmt : matchToks ts pr.2 with
        | none => rw [hmt] at hf; simp at hf
        | some cp =>
          rw [hmt] at hf
          simp only [Option.map_some', Option.some.injEq] at hf
          exact ⟨cp, rfl, hf.symm⟩
      subst hcaps
      obtain ⟨hlen, hzip⟩ := ih pr.2 caps' hm'
      obtain ⟨hne, hns⟩ := splitsDesc_mem cs pr hpr
      refine ⟨by simp [paramCount, paramSig_req] at hlen ⊢; omega, ?_⟩
      intro q hq
      rw [paramSig_req, List.zip_cons_cons] at hq
      rcases List.mem_cons.mp hq with he | ht
      · subst he
        refine ⟨fun _ => by simp, ?_⟩
        intro v hv
        rw [Option.some.injEq] at hv
        subst hv
        exact ⟨hne, hns⟩
      · exact hzip q ht
    | opt n =>
      simp only [matchToks] at hm
      rcases hfs : (splitsDesc cs).findSome?
          (fun pr => (matchToks ts pr.2).map (fun caps => some pr.1 :: caps)) with _ | r
      · rw [hfs] at hm
        simp only [] at hm
        obtain ⟨caps', hm', hcaps⟩ :
            ∃ caps', matchToks ts cs = some caps' ∧ caps = none :: caps' := by
          cases hmt : matchToks ts cs with
          | none => rw [hmt] at hm; simp at hm
          | some cp =>
            rw [hmt] at hm
            simp only [Option.map_some', Option.some.injEq] at hm
            exact ⟨cp, rfl, hm.symm⟩
        subst hcaps
        obtain ⟨hlen, hzip⟩ := ih cs caps' hm'
        refine ⟨by simp [paramCount, paramSig_opt] at hlen ⊢; omega, ?_⟩
        intro q hq
        rw [paramSig_opt, List.zip_cons_cons] at hq
        rcases List.mem_cons.mp hq with he | ht
        · subst he
          exact ⟨by simp, fun v hv => by simp at hv⟩
        · exact hzip q ht
      · rw [hfs] at hm
        simp only [Option.some.injEq] at hm
        subst hm
        obtain ⟨pr, hpr, hf⟩ := List.exists_of_findSome?_eq_some hfs
        obtain ⟨caps', hm', hcaps⟩ :
            ∃ caps', matchToks ts pr.2 = some caps' ∧ r = some pr.1 :: caps' := by
          cases hmt : matchToks ts pr.2 with
          | none => rw [hmt] at hf; simp at hf
          | some cp =>
            rw [hmt] at hf
            simp only [Option.map_some', Option.some.injEq] at hf
            exact ⟨cp, rfl, hf.symm⟩
        subst hcaps
        obtain ⟨hlen, hzip⟩ := ih pr.2 caps' hm'
        obtain ⟨hne, hns⟩ := splitsDesc_mem cs pr hpr
        refine ⟨by simp [paramCount, paramSig_opt] at hlen ⊢; omega, ?_⟩
        intro q hq
        rw [paramSig_opt, List.zip_cons_cons] at hq
        rcases List.mem_cons.mp hq with he | ht
        · subst he
          refine ⟨fun _ => by simp, ?_⟩
          intro v hv
          rw [Option.some.injEq] at hv
          subst hv
          exact ⟨hne, hns⟩
        · exact hzip q ht

/-! ### Name-order lemmas (the two-pass `paramNames` order versus the
positional capture order) -/

theorem reqNames_lit (c : Char) (ts : List Tok) : reqNames (.lit c :: ts) = reqNames ts := rfl

theorem reqNames_req (n : Str) (ts : List Tok) :
    reqNames (.req n :: ts) = n :: reqNames ts := rfl

theorem reqNames_opt (n : Str) (ts : List Tok) : reqNames (.opt n :: ts) = reqNames ts := rfl

theorem optNames_lit (c : Char) (ts : List Tok) : optNames (.lit c :: ts) = optNames ts := rfl

theorem optNames_req (n : Str) (ts : List Tok) : optNames (.req n :: ts) = optNames ts := rfl

theorem optNames_opt (n : Str) (ts : List Tok) :
    optNames (.opt n :: ts) = n :: optNames ts := rfl

theorem positionalNames_lit (c : Char) (ts : List Tok) :
    positionalNames (.lit c :: ts) = positionalNames ts := rfl

theorem positionalNames_req (n : Str) (ts : List Tok) :
    positionalNames (.req n :: ts) = n :: positionalNames ts := rfl

theorem positionalNames_opt (n : Str) (ts : List Tok) :
    positionalNames (.opt n :: ts) = n :: positionalNames ts := rfl

theorem positionalNames_eq_sig (ts : List Tok) :
    positionalNames ts = (paramSig ts).map Prod.fst := by
  induction ts with
  | nil => rfl
  | cons t ts ih =>
    cases t with
    | lit c => rw [positionalNames_lit, paramSig_lit, ih]
    | req n => rw [positionalNames_req, paramSig_req, List.map_cons, ih]
    | opt n => rw [positionalNames_opt, paramSig_opt, List.map_cons, ih]

theorem noReqToks_reqNames (ts : List Tok) (h : noReqToks ts = true) : reqNames ts = [] := by
  induction ts with
  | nil => rfl
  | cons t ts ih =>
    simp only [noReqToks, List.all_cons, Bool.and_eq_true] at h
    cases t with
    | lit c => rw [reqNames_lit]; exact ih h.2
    | req n => simp at h
    | opt n => rw [reqNames_opt]; exact ih h.2

theorem noReqToks_positional (ts : List Tok) (h : noReqToks ts = true) :
    positionalNames ts = optNames ts := by
  induction ts with
  | nil => rfl
  | cons t ts ih =>
    simp only [noReqToks, List.all_cons, Bool.and_eq_true] at h
    cases t with
    | lit c => rw [positionalNames_lit, optNames_lit]; exact ih h.2
    | req n => simp at h
    | opt n => rw [positionalNames_opt, optNames_opt, ih h.2]

/-- When every optional parameter follows all required ones, the recorded
`paramNames` order and the positional capture order coincide. -/
theorem names_aligned (ts : List Tok) (h : reqBeforeOpt ts = true) :
    reqNames ts ++ optNames ts = positionalNames ts := by
  induction ts with
  | nil => rfl
  | cons t ts ih =>
    cases t with
    | lit c =>
      have h' : reqBeforeOpt ts = true := by simpa [reqBeforeOpt] using h
      rw [reqNames_lit, optNames_lit, positionalNames_lit, ih h']
    | req n =>
      have h' : reqBeforeOpt ts = true := by simpa [reqBeforeOpt] using h
      rw [reqNames_req, optNames_req, positionalNames_req, List.cons_append, ih h']
    | opt n =>
      simp only [reqBeforeOpt, Bool.and_eq_true] at h
      rw [reqNames_opt, optNames_opt, positionalNames_opt, noReqToks_reqNames ts h.1,
        noReqToks_positional ts h.1, List.nil_append]

theorem mem_reqNames_sig (ts : List Tok) (n : Str) (h : n ∈ reqNames ts) :
    (n, true) ∈ paramSig ts := by
  induction ts with
  | nil => simp [reqNames, List.filterMap_nil] at h
  | cons t ts ih =>
    cases t with
    | lit c =>
      rw [paramSig_lit]
      exact ih (by rwa [reqNames_lit] at h)
    | req m =>
      rw [paramSig_req]
      rw [reqNames_req, List.mem_cons] at h
      rcases h with he | ht
      · subst he; exact List.mem_cons_self _ _
      · exact List.mem_cons_of_mem _ (ih ht)
    | opt m =>
      rw [paramSig_opt]
      exact List.mem_cons_of_mem _ (ih (by rwa [reqNames_opt] at h))

/-! ### `buildParams` lemmas -/

theorem lookupKV_append {β : Type} (l1 l2 : List (Str × β)) (k : Str) :
    lookupKV (l1 ++ l2) k =
      match lookupKV l1 k with
      | some v => some v
      | none => lookupKV l2 k := by
  induction l1 with
  | nil => simp [lookupKV]
  | cons p l ih =>
    obtain ⟨k1, v1⟩ := p
    by_cases h : k1 = k
    · simp [lookupKV, h]
    · simp only [List.cons_append, lookupKV, if_neg h]
      exact ih

theorem buildParams_nil_names (acc : List (Str × Str)) (cs : List (Option Str)) :
    buildParams acc [] cs = acc := rfl

theorem buildParams_nil_caps (acc : List (Str × Str)) (n : Str) (ns : List Str) :
    buildParams acc (n :: ns) [] = acc := rfl

theorem buildParams_some (acc : List (Str × Str)) (n : Str) (ns : List Str) (v : Str)
    (cs : List (Option Str)) :
    buildParams acc (n :: ns) (some v :: cs) =
      if v = [] then buildParams acc ns cs else buildParams (insertKV acc n v) ns cs := rfl

theorem buildParams_none (acc : List (Str × Str)) (n : Str) (ns : List Str)
    (cs : List (Option Str)) :
    buildParams acc (n :: ns) (none :: cs) = buildParams acc ns cs := rfl

/-- With fresh pairwise-distinct names and non-empty values, the Go
param-building loop appends exactly the name/value pairs in order. -/
theorem buildParams_zip (ns : List Str) :
    ∀ (vs : List Str) (acc : List (Str × Str)),
      ns.length = vs.length → ns.Nodup →
      (∀ n ∈ ns, lookupKV acc n = none) →
      (∀ v ∈ vs, v ≠ []) →
      buildParams acc ns (vs.map some) = acc ++ ns.zip vs := by
  induction ns with
  | nil =>
    intro vs acc hlen _ _ _
    cases vs with
    | nil => simp [buildParams]
    | cons _ _ => simp at hlen
  | cons n ns ih =>
    intro vs acc hlen hnd hfresh hvs
    cases vs with
    | nil => simp at hlen
    | cons v vs' =>
      have hv : v ≠ [] := hvs v (List.mem_cons_self _ _)
      rw [List.map_cons, buildParams_some, if_neg hv,
        insertKV_eq_append acc n v (hfresh n (List.mem_cons_self _ _))]
      have hnd' := List.nodup_cons.mp hnd
      rw [ih vs' (acc ++ [(n, v)]) (by simpa using hlen) hnd'.2 ?_
        (fun w hw => hvs w (List.mem_cons_of_mem _ hw))]
      · simp
      · intro m hm
        rw [lookupKV_append, hfresh m (List.mem_cons_of_mem _ hm)]
        have hmn : ¬ (n = m) := fun he => hnd'.1 (he ▸ hm)
        simp [lookupKV, hmn]

/-- Everything the param-building loop adds has a name from the list and
a non-empty value taken from a participating capture. -/
theorem mem_buildParams (ns : List Str) :
    ∀ (cs : List (Option Str)) (acc : List (Str × Str)) (p : Str × Str),
      p ∈ buildParams acc ns cs →
      p ∈ acc ∨ (p.1 ∈ ns ∧ some p.2 ∈ cs ∧ p.2 ≠ []) := by
  induction ns with
  | nil =>
    intro cs acc p hp
    rw [buildParams_nil_names] at hp
    exact Or.inl hp
  | cons n ns ih =>
    intro cs acc p hp
    cases cs with
    | nil =>
      rw [buildParams_nil_caps] at hp
      exact Or.inl hp
    | cons c cs' =>
      cases c with
      | none =>
        rw [buildParams_none] at hp
        rcases ih cs' acc p hp with h | ⟨h1, h2, h3⟩
        · exact Or.inl h
        · exact Or.inr ⟨List.mem_cons_of_mem _ h1, List.mem_cons_of_mem _ h2, h3⟩
      | some v =>
        rw [buildParams_some] at hp
        by_cases hv : v = []
        · rw [if_pos hv] at hp
          rcases ih cs' acc p hp with h | ⟨h1, h2, h3⟩
          · exact Or.inl h
          · exact Or.inr ⟨List.mem_cons_of_mem _ h1, List.mem_cons_of_mem _ h2, h3⟩
        · rw [if_neg hv] at hp
          rcases ih cs' (insertKV acc n v) p hp with h | ⟨h1, h2, h3⟩
          · rcases mem_insertKV acc n v p h with h' | h'
            · exact Or.inl h'
            · subst h'
              exact Or.inr ⟨List.mem_cons_self _ _, List.mem_cons_self _ _, hv⟩
          · exact Or.inr ⟨List.mem_cons_of_mem _ h1, List.mem_cons_of_mem _ h2, h3⟩

/-- A key already bound stays bound through the param-building loop. -/
theorem buildParams_mono (ns : List Str) :
    ∀ (cs : List (Option Str)) (acc : List (Str × Str)) (k : Str),
      (lookupKV acc k).isSome → (lookupKV (buildParams acc ns cs) k).isSome := by
  induction ns with
  | nil =>
    intro cs acc k hk
    rwa [buildParams_nil_names]
  | cons n ns ih =>
    intro cs acc k hk
    cases cs with
    | nil => rwa [buildParams_nil_caps]
    | cons c cs' =>
      cases c with
      | none => rw [buildParams_none]; exact ih cs' acc k hk
      | some v =>
        rw [buildParams_some]
        by_cases hv : v = []
        · rw [if_pos hv]; exact ih cs' acc k hk
        · rw [if_neg hv]
          refine ih cs' (insertKV acc n v) k ?_
          rw [lookupKV_insertKV]
          by_cases hkn : k = n
          · rw [if_pos hkn]; rfl
          · rw [if_neg hkn]; exact hk

/-- Every name marked required in the signature ends up bound, provided
its capture participates with a non-empty value. -/
theorem buildParams_req_bound (sig : List (Str × Bool)) :
    ∀ (caps : List (Option Str)) (acc : List (Str × Str)),
      (∀ pr ∈ sig.zip caps,
        (pr.1.2 = true → pr.2 ≠ none) ∧ ∀ v, pr.2 = some v → v ≠ [] ∧ ∀ c ∈ v, nonSep c = true) →
      sig.length = caps.length →
      ∀ n, (n, true) ∈ sig →
        (lookupKV (buildParams acc (sig.map Prod.fst) caps) n).isSome := by
  induction sig with
  | nil =>
    intro caps acc _ _ n hn
    simp at hn
  | cons q sig ih =>
    intro caps acc hz hlen n hn
    obtain ⟨m, b⟩ := q
    cases caps with
    | nil => simp at hlen
    | cons c caps' =>
      have hz' : ∀ pr ∈ sig.zip caps',
          (pr.1.2 = true → pr.2 ≠ none) ∧
          ∀ v, pr.2 = some v → v ≠ [] ∧ ∀ ch ∈ v, nonSep ch = true :=
        fun pr hpr => hz pr (by rw [List.zip_cons_cons]; exact List.mem_cons_of_mem _ hpr)
      have hlen' : sig.length = caps'.length := by simpa using hlen
      rcases List.mem_cons.mp hn with he | ht
      · obtain ⟨hm1, hm2⟩ := Prod.mk.injEq .. ▸ he
        subst hm1
        have hhead := hz ((n, b), c) (by rw [List.zip_cons_cons]; exact List.mem_cons_self _ _)
        have hcne : c ≠ none := hhead.1 (by simp [hm2.symm])
        obtain ⟨v, hv⟩ := Option.ne_none_iff_exists'.mp hcne
        have hvne : v ≠ [] := (hhead.2 v hv).1
        subst hv
        rw [List.map_cons, buildParams_some, if_neg hvne]
        exact buildParams_mono _ _ _ _ (by rw [lookupKV_insertKV_self]; rfl)
      · rw [List.map_cons]
        cases c with
        | none =>
          rw [buildParams_none]
          exact ih caps' acc hz' hlen' n ht
        | some v =>
          rw [buildParams_some]
          by_cases hv : v = []
          · rw [if_pos hv]; exact ih caps' acc hz' hlen' n ht
          · rw [if_neg hv]; exact ih caps' (insertKV acc m v) hz' hlen' n ht

theorem zip_right_prop {α β : Type} (P : β → Prop) :
    ∀ (l1 : List α) (l2 : List β), l1.length = l2.length →
      (∀ pr ∈ l1.zip l2, P pr.2) → ∀ b ∈ l2, P b := by
  intro l1
  induction l1 with
  | nil =>
    intro l2 hlen _ b hb
    cases l2 with
    | nil => simp at hb
    | cons _ _ => simp at hlen
  | cons a l1 ih =>
    intro l2 hlen hP b hb
    cases l2 with
    | nil => simp at hb
    | cons b2 l2' =>
      rcases List.mem_cons.mp hb with he | hb'
      · subst he
        exact hP (a, b) (by rw [List.zip_cons_cons]; exact List.mem_cons_self _ _)
      · exact ih l2' (by simpa using hlen)
          (fun pr hpr => hP pr (by rw [List.zip_cons_cons]; exact List.mem_cons_of_mem _ hpr))
          b hb'

/-! ### Router dispatch helper lemmas -/

theorem firstMatch_eq_none (l : List RouteL) (p : Str)
    (h : ∀ r ∈ l, matchRoute r p = none) : firstMatch l p = none := by
  induction l with
  | nil => rfl
  | cons r rs ih =>
    simp only [firstMatch, h r (List.mem_cons_self _ _)]
    exact ih fun r' hr' => h r' (List.mem_cons_of_mem _ hr')

/-! ### Rate limiter state lemma -/

/-- After `k` in-window requests (`1 ≤ k ≤ quota`), the client map holds
exactly the entry `(ip, ⟨k, u 0 + minute⟩)`. -/
theorem runRL_state (quota : Nat) (ip : Str) (u : Nat → Nat)
    (hwin : ∀ i, i ≤ quota → u i ≤ u 0 + minuteN) :
    ∀ k, 1 ≤ k → k ≤ quota →
      runRL quota ip u k = [(ip, { requests := k, resetTime := u 0 + minuteN })] := by
  intro k
  induction k with
  | zero => intro h1 _; omega
  | succ k ih =>
    intro _ hk
    by_cases hk0 : k = 0
    · subst hk0
      simp [runRL, rlStep, lookupKV, insertKV]
    · have hk1 : 1 ≤ k := Nat.one_le_iff_ne_zero.mpr hk0
      have hkq : k ≤ quota := Nat.le_of_succ_le hk
      have hklt : k < quota := hk
      simp only [runRL]
      rw [ih hk1 hkq]
      simp [rlStep, lookupKV, insertKV, Nat.not_lt.mpr (hwin k hkq), Nat.not_le.mpr hklt]

/-! ### Claims -/

/-- C1: the claim says any number of concurrent `Make` calls on an
unresolved singleton invoke its resolver exactly once and all callers
observe the same instance.  The code releases the read lock before
resolving and never re-checks under the write lock, so the interleaving
in which both threads pass the cached-instance check before either
stores (realisable under the `RWMutex`: both hold read locks) invokes
the resolver twice and hands the two callers distinct instances, the
first of which is no longer the cached one. -/
theorem make_singleton_concurrent_double_resolve :
    runRace raceInit [true, false, true, false, true, false] =
      { st := { cache := some 1, calls := 2 }, t1 := .done 0, t2 := .done 1 } ∧
    (runRace raceInit [true, false, true, false, true, false]).st.calls = 2 ∧
    (runRace raceInit [true, false, true, false, true, false]).t1 ≠
      (runRace raceInit [true, false, true, false, true, false]).t2 := by
  decide

/-- C2: the claim says a request dispatched to a route registered through
a group runs global, then group, then route middleware around the
handler.  In the code, dispatch goes through the root router's `Handle`,
which wraps the handler only in the route's middleware and the root's
own middleware; the group's middleware slice is never consulted, so for
global `G`, group `M`, route `R` and handler `H` the trace is
`G.in R.in H R.out G.out` and `M` never runs. -/
theorem group_middleware_not_applied :
    (buildHandler appC2 (mkCtx "GET".toList "/api/u".toList)).trace =
      ["G.in".toList, "R.in".toList, "H".toList, "R.out".toList, "G.out".toList] ∧
    "M.in".toList ∉ (buildHandler appC2 (mkCtx "GET".toList "/api/u".toList)).trace := by
  decide

/-- C3 (counterexample): the claim says an unmatched request produces a
404 whose body is the failure envelope `{"success": false, "error": …}`.
With only a POST route at `/x`, a GET `/x` request yields 404, but the
body is `{"error": "Not Found"}` with no `success` key at all. -/
theorem notfound_envelope_counterexample :
    (handleR rtrC3 cC3).status = 404 ∧
    (handleR rtrC3 cC3).body = some notFoundBody ∧
    lookupKV notFoundBody "success".toList = none := by
  decide

/-- C3 (amended): whenever no route matches the request's method and
path — also when a route for a different method exists at the identical
path — `Handle` responds 404 with body `{"error": "Not Found"}`, which
carries the error message but no `success` field. -/
theorem notfound_404_plain_error_body (rtr : RouterL) (c : Ctx)
    (h : ∀ r ∈ routesFor rtr c.method, matchRoute r c.path = none) :
    handleR rtr c = ctxJSON (ctxStatus c 404) notFoundBody ∧
    lookupKV notFoundBody "success".toList = none ∧
    lookupKV notFoundBody "error".toList = some (.str "Not Found".toList) := by
  refine ⟨?_, rfl, rfl⟩
  simp only [handleR, firstMatch_eq_none _ _ h]

/-- C3 witness: the amended claim at the concrete router holding only a
POST route at `/x`, for a GET `/x` request. -/
theorem notfound_404_plain_error_body_witness :
    (∀ r ∈ routesFor rtrC3 cC3.method, matchRoute r cC3.path = none) ∧
    handleR rtrC3 cC3 = ctxJSON (ctxStatus cC3 404) notFoundBody := by
  have hno : ∀ r ∈ routesFor rtrC3 cC3.method, matchRoute r cC3.path = none := by
    intro r hr
    rw [show routesFor rtrC3 cC3.method = [] from rfl] at hr
    exact absurd hr (List.not_mem_nil r)
  exact ⟨hno, (notfound_404_plain_error_body rtrC3 cC3 hno).1⟩

/-- C4 (counterexample): the claim says every method other than a safe
read is gated on the declared content type.  DELETE is a mutating method,
yet the middleware exempts it alongside GET: a DELETE request declaring
`text/plain` is passed to the downstream handler and gets no 415. -/
theorem json_gate_delete_counterexample :
    (jsonOnlyMW (labelH "H".toList) cDel).trace = ["H".toList] ∧
    (jsonOnlyMW (labelH "H".toList) cDel).status = 200 := by
  decide

/-- C4 (amended): for every request whose method is neither GET nor
DELETE and whose Content-Type header does not contain the substring
`application/json`, the gate responds 415 with the fixed error body; the
result does not depend on the downstream handler, which is never
invoked. -/
theorem json_gate_415_short_circuit (next : Handler) (c : Ctx)
    (h1 : c.method ≠ "GET".toList) (h2 : c.method ≠ "DELETE".toList)
    (h3 : containsSub c.ctype "application/json".toList = false) :
    jsonOnlyMW next c = abortWithJSON c 415
      [("error".toList, .str "Content-Type must be application/json".toList)] := by
  simp only [jsonOnlyMW]
  rw [if_pos ⟨h1, h2⟩, if_pos (fun hc => Bool.false_ne_true (h3 ▸ hc))]

/-- C4 witness: the amended claim at a POST request declaring
`text/plain`. -/
theorem json_gate_415_short_circuit_witness :
    cPost.method ≠ "GET".toList ∧ cPost.method ≠ "DELETE".toList ∧
    containsSub cPost.ctype "application/json".toList = false ∧
    jsonOnlyMW (labelH "H".toList) cPost = abortWithJSON cPost 415
      [("error".toList, .str "Content-Type must be application/json".toList)] :=
  ⟨by decide, by decide, by decide,
    json_gate_415_short_circuit (labelH "H".toList) cPost (by decide) (by decide) (by decide)⟩

/-- C5: with two overlapping routes on one method, a matching path
dispatches to the route registered first: in general, if the first route
of a bucket matches, `Handle` runs its chain regardless of later routes;
concretely, with `/users/{id}` registered before `/users/me`, a GET
`/users/me` runs the `/users/{id}` handler with `id = "me"`, although the
later route also matches. -/
theorem first_registered_route_wins :
    (∀ (rA : RouteL) (rs : List RouteL) (rmws : List MW) (pfx : Str) (c : Ctx)
        (ps : List (Str × Str)),
      rA.method = c.method → matchRoute rA c.path = some ps →
      handleR { routes := rA :: rs, mws := rmws, pfx := pfx } c =
        (wrapMW rmws (wrapMW rA.mws rA.handler)) { c with params := ps }) ∧
    ((handleR rtrC5 cC5).trace = ["h1".toList] ∧
     (handleR rtrC5 cC5).params = [("id".toList, "me".toList)] ∧
     matchRoute r2C5 cC5.path ≠ none) := by
  constructor
  · intro rA rs rmws pfx c ps hm hmr
    simp only [handleR, routesFor, List.filter_cons]
    rw [if_pos (by simp [hm])]
    simp only [firstMatch, hmr]
  · refine ⟨by decide, by decide, by decide⟩

/-- C5 witness: the general half applied at the concrete fixture —
`/users/{id}` heads the GET bucket and matches `/users/me` with
`id = "me"`, so `Handle` runs exactly its chain. -/
theorem first_registered_route_wins_witness :
    r1C5.method = cC5.method ∧
    matchRoute r1C5 cC5.path = some [("id".toList, "me".toList)] ∧
    handleR rtrC5 cC5 =
      (wrapMW [] (wrapMW r1C5.mws r1C5.handler)) { cC5 with params := [("id".toList, "me".toList)] } :=
  ⟨rfl, by decide,
    (first_registered_route_wins.1 r1C5 [r2C5] [] [] cC5 [("id".toList, "me".toList)]
      rfl (by decide))⟩

/-- C7: under sequential use, a `Singleton` binding resolves once — the
second `Make` returns the cached value, leaving the invocation clock at
one tick — while a `Bind` (transient) binding resolves afresh on every
`Make`, so an injective (fresh-allocating) resolver yields distinct
instances on two sequential calls. -/
theorem make_singleton_once_transient_fresh (s : ContainerL) (name : Str) (f : Nat → Val)
    (ha : lookupKV s.aliases name = none) (hi : lookupKV s.instances name = none) :
    (lookupKV s.bindings name = some { resolver := f, singleton := true } →
      (makeC s name).1 = .ok (f s.counter) ∧
      (makeC (makeC s name).2 name).1 = .ok (f s.counter) ∧
      (makeC (makeC s name).2 name).2.counter = s.counter + 1) ∧
    (lookupKV s.bindings name = some { resolver := f, singleton := false } →
      Function.Injective f →
      (makeC s name).1 = .ok (f s.counter) ∧
      (makeC (makeC s name).2 name).1 = .ok (f (s.counter + 1)) ∧
      (makeC s name).1 ≠ (makeC (makeC s name).2 name).1) := by
  constructor
  · intro hb
    have h1 : makeC s name =
        (.ok (f s.counter),
          { bindings := s.bindings, instances := insertKV s.instances name (f s.counter),
            aliases := s.aliases, counter := s.counter + 1 }) := by
      simp [makeC, canonName, ha, hi, hb]
    have h2 : makeC (makeC s name).2 name = (.ok (f s.counter), (makeC s name).2) := by
      rw [h1]
      simp [makeC, canonName, ha, lookupKV_insertKV_self]
    refine ⟨by rw [h1], by rw [h2], ?_⟩
    rw [h2, h1]
  · intro hb hinj
    have hne : f s.counter ≠ f (s.counter + 1) := fun he => by
      have := hinj he
      omega
    have h1 : makeC s name =
        (.ok (f s.counter),
          { bindings := s.bindings, instances := s.instances, aliases := s.aliases,
            counter := s.counter + 1 }) := by
      simp [makeC, canonName, ha, hi, hb]
    have h2 : makeC (makeC s name).2 name =
        (.ok (f (s.counter + 1)),
          { bindings := s.bindings, instances := s.instances, aliases := s.aliases,
            counter := s.counter + 1 + 1 }) := by
      rw [h1]
      simp [makeC, canonName, ha, hi, hb]
    refine ⟨by rw [h1], by rw [h2], ?_⟩
    rw [h2, h1]
    simp [hne]

/-- C7 witness: the singleton and transient halves at concrete one-binding
containers whose resolver allocates a fresh object per invocation. -/
theorem make_singleton_once_transient_fresh_witness :
    (makeC contC7s "s".toList).1 = .ok (.obj 0) ∧
    (makeC (makeC contC7s "s".toList).2 "s".toList).1 = .ok (.obj 0) ∧
    (makeC (makeC contC7s "s".toList).2 "s".toList).2.counter = 1 ∧
    (makeC contC7t "t".toList).1 = .ok (.obj 0) ∧
    (makeC (makeC contC7t "t".toList).2 "t".toList).1 = .ok (.obj 1) ∧
    (makeC contC7t "t".toList).1 ≠ (makeC (makeC contC7t "t".toList).2 "t".toList).1 := by
  have hs := (make_singleton_once_transient_fresh contC7s "s".toList Val.obj rfl rfl).1 rfl
  have ht := (make_singleton_once_transient_fresh contC7t "t".toList Val.obj rfl rfl).2 rfl
    (fun a b he => Val.obj.injEq a b ▸ he)
  exact ⟨hs.1, hs.2.1, hs.2.2, ht.1, ht.2.1, ht.2.2⟩

/-- C8: `Make` first maps the requested name through the alias table to a
canonical name; a cached instance under the canonical name is returned
as-is, with the container (and so the invocation clock) untouched; with
no cached instance and no binding it fails with
`binding not found: <canonical name>`, again without touching the
container. -/
theorem make_alias_cache_missing_binding (s : ContainerL) (name : Str) :
    (∀ v, lookupKV s.instances (canonName s name) = some v → makeC s name = (.ok v, s)) ∧
    (lookupKV s.instances (canonName s name) = none →
      lookupKV s.bindings (canonName s name) = none →
      makeC s name = (.error ("binding not found: ".toList ++ canonName s name), s)) := by
  constructor
  · intro v hv
    simp only [makeC, hv]
  · intro hi hb
    simp only [makeC, hi, hb]

/-- C8 witness: alias `a → b` with instance cached under `b` returns that
instance unchanged; alias `c → d` with nothing bound fails with the
canonical name `d` in the message. -/
theorem make_alias_cache_missing_binding_witness :
    lookupKV contC8.instances (canonName contC8 "a".toList) = some (.obj 7) ∧
    makeC contC8 "a".toList = (.ok (.obj 7), contC8) ∧
    lookupKV contC8b.instances (canonName contC8b "c".toList) = none ∧
    lookupKV contC8b.bindings (canonName contC8b "c".toList) = none ∧
    makeC contC8b "c".toList =
      (.error ("binding not found: ".toList ++ canonName contC8b "c".toList), contC8b) :=
  ⟨rfl, (make_alias_cache_missing_binding contC8 "a".toList).1 (.obj 7) rfl, rfl, rfl,
    (make_alias_cache_missing_binding contC8b "c".toList).2 rfl rfl⟩

/-- C6 (counterexample): the claim says substitution into any template
round-trips through the matcher.  For `/{b?}/{a}` the compiled pattern's
groups are positional (`b` first), but `paramNames` lists required names
first (`["a", "b"]`), so substituting `b := "x"`, `a := "y"` builds
`/x/y`, which the matcher accepts while binding `a` to `"x"` and `b` to
`"y"` — not the substituted values. -/
theorem route_subst_roundtrip_counterexample :
    positionalNames rC6.toks = ["b".toList, "a".toList] ∧
    substP rC6.toks ["x".toList, "y".toList] = "/x/y".toList ∧
    matchRoute rC6 "/x/y".toList =
      some [("a".toList, "x".toList), ("b".toList, "y".toList)] ∧
    ¬ ("x".toList = ("y".toList : Str)) := by
  decide

/-- C6 (amended): for every route template whose parameters each occupy a
whole path segment, whose literal text is regex-plain, whose optional
parameters all follow the required ones, and whose parameter names are
distinct, substituting non-empty separator-free values yields a path the
compiled matcher accepts, recovering exactly the substituted values
under the corresponding names; moreover, in any successful match no
parameter is ever bound to an empty string, so an unmatched optional
parameter is simply absent from the result. -/
theorem route_subst_roundtrip (method tpl : Str) (hh : Handler) (rmws : List MW)
    (vs : List Str)
    (hdel : delimitedToks (parseToks tpl) = true)
    (_hplain : plainToks (parseToks tpl) = true)
    (hord : reqBeforeOpt (parseToks tpl) = true)
    (hnd : (positionalNames (parseToks tpl)).Nodup)
    (hlen : vs.length = paramCount (parseToks tpl))
    (hvals : ∀ v ∈ vs, v ≠ [] ∧ ∀ c ∈ v, nonSep c = true) :
    matchRoute (mkRoute method tpl hh rmws) (substP (parseToks tpl) vs) =
      some ((positionalNames (parseToks tpl)).zip vs) ∧
    (∀ (r : RouteL) (path : Str) (ps : List (Str × Str)),
      matchRoute r path = some ps → ∀ p ∈ ps, p.2 ≠ []) := by
  constructor
  · have hm := matchToks_substP (parseToks tpl) vs hdel hlen hvals
    have htoks : (mkRoute method tpl hh rmws).toks = parseToks tpl := rfl
    have hnames : (mkRoute method tpl hh rmws).paramNames =
        reqNames (parseToks tpl) ++ optNames (parseToks tpl) := rfl
    simp only [matchRoute, htoks, hnames]
    rw [hm, names_aligned _ hord]
    have hlen2 : (positionalNames (parseToks tpl)).length = vs.length := by
      rw [positionalNames_eq_sig, List.length_map]
      exact hlen.symm
    show some (buildParams [] (positionalNames (parseToks tpl)) (List.map some vs)) =
      some ((positionalNames (parseToks tpl)).zip vs)
    rw [buildParams_zip (positionalNames (parseToks tpl)) vs [] hlen2 hnd
      (fun n _ => rfl) (fun v hv => (hvals v hv).1)]
    simp
  · intro r path ps hmr p hp
    rcases hcaps : matchToks r.toks path with _ | caps
    · simp only [matchRoute, hcaps] at hmr
      exact absurd hmr (by simp)
    · simp only [matchRoute, hcaps, Option.some.injEq] at hmr
      subst hmr
      rcases mem_buildParams r.paramNames caps [] p hp with hfalse | ⟨_, _, h3⟩
      · exact absurd hfalse (List.not_mem_nil p)
      · exact h3

/-- C6 witness: the amended claim at `/users/{id}/posts/{slug?}` with
values `id := "7"`, `slug := "hello"`. -/
theorem route_subst_roundtrip_witness :
    delimitedToks (parseToks "/users/{id}/posts/{slug?}".toList) = true ∧
    reqBeforeOpt (parseToks "/users/{id}/posts/{slug?}".toList) = true ∧
    matchRoute
        (mkRoute "GET".toList "/users/{id}/posts/{slug?}".toList (labelH "h".toList) [])
        (substP (parseToks "/users/{id}/posts/{slug?}".toList) ["7".toList, "hello".toList]) =
      some [("id".toList, "7".toList), ("slug".toList, "hello".toList)] :=
  ⟨by decide, by decide,
    (route_subst_roundtrip "GET".toList "/users/{id}/posts/{slug?}".toList
      (labelH "h".toList) [] ["7".toList, "hello".toList] (by decide) (by decide) (by decide)
      (by decide) (by decide) (by decide)).1⟩

/-- C9: with quota `N ≥ 1` per window, starting from an empty client map,
`N` requests from one client inside the window all pass; the `(N+1)`-th
in-window request is answered 429 with the fixed error body without
invoking the downstream handler (the result does not mention it); and a
request after the window boundary passes downstream and leaves the
client's counter at exactly 1 with a fresh window. -/
theorem rate_limit_quota (quota : Nat) (ip : Str) (u : Nat → Nat) (v : Nat)
    (next : Handler) (c : Ctx)
    (hq : 1 ≤ quota)
    (hwin : ∀ i, i ≤ quota → u i ≤ u 0 + minuteN)
    (hv : u 0 + minuteN < v) :
    (∀ k, k < quota → (rlStep quota (runRL quota ip u k) ip (u k)).2 = true) ∧
    rlHandleOne quota (runRL quota ip u quota) next c ip (u quota) =
      ([(ip, { requests := quota, resetTime := u 0 + minuteN })],
        abortWithJSON c 429 [("error".toList, .str "Too many requests".toList)]) ∧
    rlHandleOne quota (runRL quota ip u (quota + 1)) next c ip v =
      ([(ip, { requests := 1, resetTime := v + minuteN })], next c) := by
  have hstate := runRL_state quota ip u hwin
  have hreject : rlStep quota (runRL quota ip u quota) ip (u quota) =
      ([(ip, { requests := quota, resetTime := u 0 + minuteN })], false) := by
    rw [hstate quota hq le_rfl]
    simp [rlStep, lookupKV, insertKV, Nat.not_lt.mpr (hwin quota le_rfl)]
  refine ⟨?_, ?_, ?_⟩
  · intro k hk
    by_cases hk0 : k = 0
    · subst hk0
      simp [runRL, rlStep, lookupKV, insertKV]
    · have hk1 : 1 ≤ k := Nat.one_le_iff_ne_zero.mpr hk0
      rw [hstate k hk1 (Nat.le_of_lt hk)]
      simp [rlStep, lookupKV, insertKV, Nat.not_lt.mpr (hwin k (Nat.le_of_lt hk)),
        Nat.not_le.mpr hk]
  · simp [rlHandleOne, hreject]
  · have hS1 : runRL quota ip u (quota + 1) =
        [(ip, { requests := quota, resetTime := u 0 + minuteN })] := by
      simp only [runRL]
      rw [hreject]
    rw [hS1]
    have hq0 : ¬ (0 ≥ quota) := by omega
    simp [rlHandleOne, rlStep, lookupKV, insertKV, hv, hq0]

/-- C9 witness: quota 2, three requests at time 0 — the first two pass,
the third is rejected with 429 — then a request at time 61 passes and
resets the counter to 1. -/
theorem rate_limit_quota_witness :
    (rlStep 2 (runRL 2 "c".toList (fun _ => 0) 0) "c".toList 0).2 = true ∧
    (rlStep 2 (runRL 2 "c".toList (fun _ => 0) 1) "c".toList 0).2 = true ∧
    rlHandleOne 2 (runRL 2 "c".toList (fun _ => 0) 2) (labelH "H".toList)
        (mkCtx "GET".toList "/".toList) "c".toList 0 =
      ([("c".toList, { requests := 2, resetTime := 0 + minuteN })],
        abortWithJSON (mkCtx "GET".toList "/".toList) 429
          [("error".toList, .str "Too many requests".toList)]) ∧
    rlHandleOne 2 (runRL 2 "c".toList (fun _ => 0) 3) (labelH "H".toList)
        (mkCtx "GET".toList "/".toList) "c".toList 61 =
      ([("c".toList, { requests := 1, resetTime := 61 + minuteN })],
        labelH "H".toList (mkCtx "GET".toList "/".toList)) := by
  have h := rate_limit_quota 2 "c".toList (fun _ => 0) 61 (labelH "H".toList)
    (mkCtx "GET".toList "/".toList) (by decide) (fun i _ => Nat.zero_le _) (by decide)
  exact ⟨h.1 0 (by decide), h.1 1 (by decide), h.2.1, h.2.2⟩

/-- C10 (counterexample): the claim says every required parameter of a
matched route is bound.  For `/{b?}/{a}` the path `//y` matches (the
optional group is skipped), yet the required parameter `a` is absent
from the result: due to the `paramNames` ordering, `a` is paired with
the skipped first capture group. -/
theorem match_params_invariant_counterexample :
    "a".toList ∈ reqNames rC6.toks ∧
    matchRoute rC6 "//y".toList = some [("b".toList, "y".toList)] ∧
    lookupKV [(("b".toList : Str), ("y".toList : Str))] "a".toList = none := by
  decide

/-- C10 (amended): for a route compiled from a regex-plain template, every
successful match binds only names from `paramNames`, each to a non-empty
single segment (no separator); and when every optional parameter follows
all required ones, every required parameter is bound. -/
theorem match_params_invariant (method tpl : Str) (hh : Handler) (rmws : List MW)
    (_hplain : plainToks (parseToks tpl) = true)
    (path : Str) (ps : List (Str × Str))
    (hm : matchRoute (mkRoute method tpl hh rmws) path = some ps) :
    (∀ p ∈ ps, p.1 ∈ (mkRoute method tpl hh rmws).paramNames ∧
      p.2 ≠ [] ∧ ∀ ch ∈ p.2, nonSep ch = true) ∧
    (reqBeforeOpt (parseToks tpl) = true →
      ∀ n ∈ reqNames (parseToks tpl), (lookupKV ps n).isSome) := by
  have htoks : (mkRoute method tpl hh rmws).toks = parseToks tpl := rfl
  have hnames : (mkRoute method tpl hh rmws).paramNames =
      reqNames (parseToks tpl) ++ optNames (parseToks tpl) := rfl
  simp only [matchRoute, htoks] at hm
  rcases hcaps : matchToks (parseToks tpl) path with _ | caps
  · rw [hcaps] at hm
    exact absurd hm (by simp)
  · rw [hcaps] at hm
    simp only [Option.some.injEq] at hm
    subst hm
    obtain ⟨hclen, hzip⟩ := matchToks_caps (parseToks tpl) path caps hcaps
    have hsiglen : (paramSig (parseToks tpl)).length = caps.length := hclen.symm
    constructor
    · intro p hp
      rcases mem_buildParams _ caps [] p hp with hfalse | ⟨h1, h2, h3⟩
      · exact absurd hfalse (List.not_mem_nil p)
      · refine ⟨h1, h3, ?_⟩
        have hcapgood := zip_right_prop
          (fun cap => ∀ w, cap = some w → w ≠ [] ∧ ∀ ch ∈ w, nonSep ch = true)
          (paramSig (parseToks tpl)) caps hsiglen (fun pr hpr => (hzip pr hpr).2)
        exact ((hcapgood (some p.2) h2) p.2 rfl).2
    · intro hord n hn
      have hsig := mem_reqNames_sig (parseToks tpl) n hn
      have halign : reqNames (parseToks tpl) ++ optNames (parseToks tpl) =
          (paramSig (parseToks tpl)).map Prod.fst := by
        rw [names_aligned _ hord, positionalNames_eq_sig]
      rw [hnames, halign]
      exact buildParams_req_bound (paramSig (parseToks tpl)) caps [] hzip hsiglen n hsig

/-- C10 witness: the amended claim at `/users/{id}` matched against
`/users/42` — the single binding is `id`, non-empty and separator-free,
and the required `id` is bound. -/
theorem match_params_invariant_witness :
    plainToks (parseToks "/users/{id}".toList) = true ∧
    matchRoute (mkRoute "GET".toList "/users/{id}".toList (labelH "h".toList) [])
        "/users/42".toList = some [("id".toList, "42".toList)] ∧
    (∀ p ∈ [(("id".toList : Str), ("42".toList : Str))],
      p.1 ∈ (mkRoute "GET".toList "/users/{id}".toList (labelH "h".toList) []).paramNames ∧
      p.2 ≠ [] ∧ ∀ ch ∈ p.2, nonSep ch = true) ∧
    (lookupKV [(("id".toList : Str), ("42".toList : Str))] "id".toList).isSome := by
  have h := match_params_invariant "GET".toList "/users/{id}".toList (labelH "h".toList) []
    (by decide) "/users/42".toList [("id".toList, "42".toList)] (by decide)
  exact ⟨by decide, by decide, h.1, h.2 (by decide) "id".toList (by decide)⟩

end Binigo
